import Mathlib

/-!
Verification of `recipe_engine/step_runner.py`.

This file gives a shallow embedding, in Lean 4, of the pure algorithmic
content of the step runner: the incremental line buffer
(`_streamingLinebuf`), the environment merge (`_merge_envs`), the render-time
placeholder grouping of `render_step`, the output-placeholder result
construction of `construct_step_result`, the simulated `run()` timeout check
of `SimulationStepRunner`, the `run_context` exception policies of both
runners, the polling loop of `SubprocessStepRunner._run_cmd`, and the trigger
payload construction of `_trigger_builds` / `_normalize_change`.

Conventions: Python strings are `List Char` where character-level reasoning
is needed and `String` otherwise; Python dicts are association lists with
unique keys (`alistGet` / `alistSet` / `alistDel` reproduce dict lookup,
assignment preserving insertion order, and deletion); a Python function that
can raise returns `Option` / `Except`; numeric timeouts are modelled as `Nat`
(the code only compares them).
-/

/-- Dict lookup: `d[k]` / `d.get(k)`. -/
def alistGet {κ β : Type} [DecidableEq κ] : List (κ × β) → κ → Option β
  | [], _ => none
  | (k, v) :: rest, key => if k = key then some v else alistGet rest key

/-- Dict assignment `d[k] = v`: replaces the value in place if the key is
present (keeping its position, as Python dicts do), otherwise appends. -/
def alistSet {κ β : Type} [DecidableEq κ] : List (κ × β) → κ → β → List (κ × β)
  | [], key, val => [(key, val)]
  | (k, v) :: rest, key, val =>
    if k = key then (key, val) :: rest else (k, v) :: alistSet rest key val

/-- Dict deletion `del d[k]` (a no-op when the key is absent, matching the
guarded `if k in result: del result[k]` in `_merge_envs`). -/
def alistDel {κ β : Type} [DecidableEq κ] : List (κ × β) → κ → List (κ × β)
  | [], _ => []
  | (k, v) :: rest, key =>
    if k = key then alistDel rest key else (k, v) :: alistDel rest key

/-! ## The incremental line buffer (`_streamingLinebuf`, lines 45-72) -/

/-- Reference specification for line splitting: scan the stream left to
right carrying the current partial line `cur`; a newline completes the
current line, and the scan ends with the list of completed lines plus the
trailing fragment.  This is the spec-side description of "complete lines of
the stream so far"; it is compared with the code-side `splitlines`-based
buffer below. -/
def linesSpec (cur : List Char) : List Char → List (List Char) × List Char
  | [] => ([], cur)
  | c :: rest =>
    if c = '\n' then
      let r := linesSpec [] rest
      (cur :: r.1, r.2)
    else
      linesSpec (cur ++ [c]) rest

/-- Python's `data.splitlines()` for newline-terminated data: `""` gives
`[]`, a trailing fragment without a final newline is kept as the last
element, and a trailing newline produces no empty last element.  (The pipes
feeding `ingest` are opened with `universal_newlines=True`, so the data the
buffer sees uses `\n` terminators.) -/
def splitlines : List Char → List (List Char)
  | [] => []
  | c :: rest =>
    if c = '\n' then [] :: splitlines rest
    else
      match splitlines rest with
      | [] => [[c]]
      | l :: ls => (c :: l) :: ls

/-- Python's `data.endswith("\n")`. -/
def endsWithNl (s : List Char) : Bool :=
  s.getLast? == some '\n'

/-- State of a `_streamingLinebuf`: `buffedlines` is the list of completed
lines not yet drained by `get_buffered`, `extra` the carried partial
fragment (the `cStringIO` buffer). -/
structure Linebuf where
  buffedlines : List (List Char)
  extra : List Char
deriving DecidableEq, Repr

/-- Second half of `ingest` (running with an empty `extra`): if the data did
not end on a linebreak, the last element of `lines` becomes the new carried
fragment and the rest are buffered; `none` models the `IndexError` that
`lines[-1]` raises when `lines` is empty. -/
def ingestTail (buffed : List (List Char)) (lines : List (List Char)) (ended : Bool) :
    Option Linebuf :=
  if ended then
    some ⟨buffed ++ lines, []⟩
  else
    match lines.getLast? with
    | none => none
    | some last => some ⟨buffed ++ lines.dropLast, last⟩

/-- `_streamingLinebuf.ingest(data)`.  `none` models an uncaught
`IndexError` (`lines[0]` with leftovers present, or `lines[-1]` otherwise,
both only reachable when `data` is empty so that `splitlines` is empty).
When leftovers exist they are prepended to the first new line; if that merge
does not complete a line (`len(lines) == 1` and no trailing linebreak) the
merged fragment is carried and nothing is buffered. -/
def ingest (st : Linebuf) (data : List Char) : Option Linebuf :=
  let lines := splitlines data
  let ended := endsWithNl data
  if st.extra.isEmpty then
    ingestTail st.buffedlines lines ended
  else
    match lines with
    | [] => none
    | l0 :: rest =>
      if rest.isEmpty && !ended then
        some ⟨st.buffedlines, st.extra ++ l0⟩
      else
        ingestTail st.buffedlines ((st.extra ++ l0) :: rest) ended

/-- `_streamingLinebuf.get_buffered()`: returns the completed lines and
clears them. -/
def get_buffered (st : Linebuf) : List (List Char) × Linebuf :=
  (st.buffedlines, ⟨[], st.extra⟩)

/-- Ingest a sequence of chunks, propagating an `IndexError`. -/
def ingestAll (st : Linebuf) : List (List Char) → Option Linebuf
  | [] => some st
  | d :: ds =>
    match ingest st d with
    | none => none
    | some st1 => ingestAll st1 ds

/-- Helper for relating `splitlines` to `linesSpec`: prepend a carried
fragment to the first line of a `splitlines` result. -/
def prepFirst (cur : List Char) : List (List Char) → List (List Char)
  | [] => if cur.isEmpty then [] else [cur]
  | l :: ls => (cur ++ l) :: ls

/-! ## `_merge_envs` (lines 609-627) -/

/-- `_merge_envs(original, override)`.  The substitution primitive
`str(v) % original` (Python dict-interpolation resolving `%(KEY)s` tokens)
is an external stdlib operation, taken here as the parameter `fmt`; the
source always resolves it against the *pre-override* `original`, which the
translation makes explicit by passing `original` to `fmt`.  A `none`
override value deletes the key; otherwise the key is assigned the formatted
value.  (`if not override: return result` coincides with folding over the
empty list.) -/
def merge_envs (fmt : String → List (String × String) → String)
    (original : List (String × String))
    (override : List (String × Option String)) : List (String × String) :=
  override.foldl
    (fun result kv =>
      match kv.2 with
      | none => alistDel result kv.1
      | some v => alistSet result kv.1 (fmt v original))
    original

/-! ## Output-placeholder result construction (`construct_step_result`,
lines 574-592)

Each group's instances are iterated in insertion order; an instance is a
pair of its optional explicit name (`ph.name`) and the value that
`ph.result(presentation, td)` produced (abstracted to a value of type `α`).
The loop fills `named_results` (a dict keyed by explicit name) and, for the
unnamed instance, `default_result`; afterwards, if no unnamed instance
existed and exactly one named result was recorded, that single result
becomes the default. -/

/-- Per-group named/default result computation of `construct_step_result`:
returns the `named_results` dict together with the optional group default
(`none` models `UNSET_VALUE`, in which case no default attribute is set). -/
def groupResults {α : Type} (instances : List (Option String × α)) :
    List (String × α) × Option α :=
  let folded := instances.foldl
    (fun acc inst =>
      match inst.1 with
      | none => (acc.1, some inst.2)
      | some n => (alistSet acc.1 n inst.2, acc.2))
    ([], none)
  match folded.2, folded.1 with
  | none, [single] => (folded.1, some single.2)
  | d, _ => (folded.1, d)

/-! ## Simulated `run()` (`SimulationStepRunner.open_step`, lines 429-437) -/

/-- A step as the simulated `run()` sees it: its name and the optional
requested timeout from `step_dict.get('timeout')`. -/
structure SimStep where
  name : String
  timeout : Option Nat
deriving DecidableEq, Repr

/-- The fixture fields consulted by the simulated `run()`:
`step_test.retcode` and `step_test.times_out_after`. -/
structure SimFixture where
  retcode : Int
  times_out_after : Option Nat
deriving DecidableEq, Repr

/-- Outcome of the simulated `run()`: either `StepTimeout(name, timeout)`
(carrying the step's requested timeout) or a synthesized result built from
the fixture's return code. -/
inductive SimOutcome where
  | stepTimeout (name : String) (limit : Nat)
  | result (retcode : Int)
deriving DecidableEq, Repr

/-- Python numeric-or-None truthiness: `None` and `0` are falsy. -/
def pyTruthy (o : Option Nat) : Bool :=
  o.getD 0 != 0

/-- `SimulationStepRunner`'s `ReturnOpenStep.run()`: raises
`StepTimeout(step_dict['name'], timeout)` when both the requested timeout
and the fixture's `times_out_after` are truthy and `times_out_after` exceeds
the requested timeout; otherwise inserts the step into `_step_history`
(ordered-dict assignment) and returns the fixture's return code.  The second
component is the resulting run history; on a timeout it is returned
unchanged (the step is not recorded). -/
def simRun (history : List (String × SimStep)) (step : SimStep) (fx : SimFixture) :
    SimOutcome × List (String × SimStep) :=
  if pyTruthy step.timeout && pyTruthy fx.times_out_after
      && decide (fx.times_out_after.getD 0 > step.timeout.getD 0) then
    (SimOutcome.stepTimeout step.name (step.timeout.getD 0), history)
  else
    (SimOutcome.result fx.retcode, alistSet history step.name step)

/-! ## `run_context` exception policies (lines 257-264 and 458-470) -/

/-- `SubprocessStepRunner.run_context`: `try: yield / except Exception:
pass`.  The body's outcome is `some ex` when it raised the exception `ex`
(any `Exception`), `none` when it completed; the result is the exception
escaping the context, and the bare `except Exception: pass` means nothing
ever escapes. -/
def subprocess_run_context (body : Option String) : Option String :=
  match body with
  | some _ => none
  | none => none

/-- Modelled from the spec: `should_raise_exception` lives in
`recipe_test_api.py`, which is not among the sources; per the spec the
simulated `run_context` "swallows an exception only if it matches a declared
expected-exception fixture, otherwise re-raises".  `expected` is the
declared expected exception (by type name), `ex` the raised one. -/
def should_raise_exception (expected : Option String) (ex : String) : Bool :=
  !(expected == some ex)

/-- Outcome of `SimulationStepRunner.run_context`: completed normally, an
exception propagated, or the final `assert self._test_data.consumed`
failed. -/
inductive SimCtxOutcome where
  | completed
  | raised (ex : String)
  | assertionError
deriving DecidableEq, Repr

/-- `SimulationStepRunner.run_context`: a raised exception is re-raised
unless it matches the declared expected exception; after a normal or
swallowed completion the `consumed` assertion runs (`consumed` abstracts
`self._test_data.consumed`). -/
def sim_run_context (expected : Option String) (consumed : Bool) (body : Option String) :
    SimCtxOutcome :=
  match body with
  | none => if consumed then .completed else .assertionError
  | some ex =>
    if should_raise_exception expected ex then .raised ex
    else if consumed then .completed else .assertionError

/-! ## The live polling loop (`SubprocessStepRunner._run_cmd`, lines
340-359, and the `TimeoutExpired` handler of `open_step`, lines 209-214)

The loop `for pipe, data in proc.yield_any(timeout=1)` is modelled by a
list of poll events, each carrying the elapsed wall-clock time
(`time.time() - start_time`) observed at that iteration and the optional
`(pipe, data)` pair (`none` when `yield_any` reported no data).  The
observable effects of the loop body are recorded as a trace of actions; the
translation emits exactly the actions present in the source — the timeout
branch raises `subprocess42.TimeoutExpired(cmd, timeout)` and contains no
call that terminates the child process (`RunAction.kill` exists in the
action vocabulary precisely so that its absence from every trace is a
provable statement about the code). -/

/-- One iteration of `proc.yield_any`. -/
structure PollEvent where
  elapsed : Nat
  item : Option (String × List Char)
deriving DecidableEq, Repr

/-- Observable actions of the polling loop. -/
inductive RunAction where
  | writeLine (pipe : String) (line : List Char)
  | raiseTimeoutExpired (limit : Nat)
  | kill
deriving DecidableEq, Repr

/-- Result of the polling loop. -/
inductive LoopResult where
  | timedOut (limit : Nat)
  | finished (retcode : Int)
  | ingestError
deriving DecidableEq, Repr

/-- The polling loop of `_run_cmd` (the `if linebufs:` branch): each event
first undergoes the manual timeout check
(`if timeout and time.time() - start_time > timeout: raise`), then `None`
pipes and pipes without a line buffer are skipped (`continue`), and
otherwise the data is ingested and the completed lines written to the
pipe's output stream. -/
def run_cmd_loop (timeout : Option Nat) (retcode : Int) :
    List (String × Linebuf) → List RunAction → List PollEvent →
    List RunAction × LoopResult
  | _, acts, [] => (acts, .finished retcode)
  | bufs, acts, ev :: evs =>
    if pyTruthy timeout && decide (ev.elapsed > timeout.getD 0) then
      (acts ++ [RunAction.raiseTimeoutExpired (timeout.getD 0)],
       .timedOut (timeout.getD 0))
    else
      match ev.item with
      | none => run_cmd_loop timeout retcode bufs acts evs
      | some (pipe, data) =>
        match alistGet bufs pipe with
        | none => run_cmd_loop timeout retcode bufs acts evs
        | some buf =>
          match ingest buf data with
          | none => (acts, .ingestError)
          | some buf1 =>
            run_cmd_loop timeout retcode
              (alistSet bufs pipe (get_buffered buf1).2)
              (acts ++ ((get_buffered buf1).1.map (RunAction.writeLine pipe)))
              evs

/-- Outcome of `ReturnOpenStep.run()` around `_run_cmd`. -/
inductive StepOutcome where
  | stepTimeout (name : String) (limit : Nat)
  | done (retcode : Int)
  | ingestCrash
deriving DecidableEq, Repr

/-- `ReturnOpenStep.run()` (live): runs the polling loop; a
`subprocess42.TimeoutExpired` is converted to
`StepTimeout(step_dict['name'], e.timeout)`. -/
def open_step_run (name : String) (timeout : Option Nat) (retcode : Int)
    (bufs : List (String × Linebuf)) (events : List PollEvent) :
    List RunAction × StepOutcome :=
  match run_cmd_loop timeout retcode bufs [] events with
  | (acts, .timedOut limit) => (acts, .stepTimeout name limit)
  | (acts, .finished rc) => (acts, .done rc)
  | (acts, .ingestError) => (acts, .ingestCrash)

/-! ## Placeholder rendering of `cmd` (`render_step`, lines 504-522) -/

/-- An entry of a step's `cmd`: a literal string, or an input/output
placeholder with its `(module, name)` namespace, optional explicit instance
name (`item.name`) and the concrete tokens its `render(tdata)` produces. -/
inductive CmdItem where
  | lit (s : String)
  | inputPh (module ph : String) (inst : Option String) (tokens : List String)
  | outputPh (module ph : String) (inst : Option String) (tokens : List String)
deriving DecidableEq, Repr

/-- State of the `cmd`-rendering loop: the accumulated `new_cmd`, and the
grouped placeholder registries.  `input_phs[group]` is the plain list the
code appends to; `output_phs[group]` records the `OrderedDict` keys (the
instance names) in insertion order — membership of a name in that list is
exactly the `item.name not in output_phs[module_name][placeholder_name]`
test of the assert. -/
structure RState where
  new_cmd : List String
  input_phs : List ((String × String) × List (Option String))
  output_phs : List ((String × String) × List (Option String))
deriving DecidableEq, Repr

/-- Defaultdict access `g[k]` (an absent group reads as empty). -/
def groupGet (g : List ((String × String) × List (Option String)))
    (k : String × String) : List (Option String) :=
  (alistGet g k).getD []

/-- Append one instance name to a group (creating the group on first
touch, as `defaultdict` does). -/
def groupAppend (g : List ((String × String) × List (Option String)))
    (k : String × String) (v : Option String) :
    List ((String × String) × List (Option String)) :=
  alistSet g k (groupGet g k ++ [v])

/-- One iteration of the `for item in step.get('cmd', [])` loop of
`render_step`.  A literal passes through; an input placeholder's rendered
tokens extend `new_cmd` and the instance is appended, unchecked, to its
group; an output placeholder first undergoes the assert — if its instance
name is already a key of its group the step fails with the configuration
error naming `(step['name'], module, placeholder_name)`. -/
def render_one (stepName : String) (st : RState) (item : CmdItem) :
    Except (String × String × String) RState :=
  match item with
  | .lit s => .ok { st with new_cmd := st.new_cmd ++ [s] }
  | .inputPh m p inst toks =>
    .ok { st with new_cmd := st.new_cmd ++ toks,
                  input_phs := groupAppend st.input_phs (m, p) inst }
  | .outputPh m p inst toks =>
    if inst ∈ groupGet st.output_phs (m, p) then
      .error (stepName, m, p)
    else
      .ok { st with new_cmd := st.new_cmd ++ toks,
                    output_phs := groupAppend st.output_phs (m, p) inst }

/-- The full `cmd`-rendering loop. -/
def render_cmd (stepName : String) (st : RState) :
    List CmdItem → Except (String × String × String) RState
  | [] => .ok st
  | item :: rest =>
    match render_one stepName st item with
    | .error e => .error e
    | .ok st1 => render_cmd stepName st1 rest

/-- The initial rendering state. -/
def rinit : RState := ⟨[], [], []⟩

/-- Discriminator for `Except`. -/
def exceptOk {ε α : Type} : Except ε α → Bool
  | .ok _ => true
  | .error _ => false

/-- Spec-side view: the instance names of the output placeholders of group
`(m, p)` occurring in a `cmd`, in order. -/
def outInstNames (cmd : List CmdItem) (m p : String) : List (Option String) :=
  cmd.filterMap fun item =>
    match item with
    | CmdItem.outputPh m1 p1 inst _ => if m1 = m ∧ p1 = p then some inst else none
    | _ => none

/-! ## Trigger records (`_trigger_builds` / `_normalize_change`, lines
361-392, and the module imports, lines 1-23) -/

/-- Errors raisable while building trigger records: the
`ValueError('Trigger spec: builder_name is not set')`, and the `NameError`
that evaluating `calendar.timegm(...)` raises because `calendar` is never
imported by the module. -/
inductive TrigError where
  | valueError
  | nameError
deriving DecidableEq, Repr

/-- A `when_timestamp` value: already a number, or a `datetime.datetime`
(whose fields are irrelevant here, since the code crashes before reading
them). -/
inductive PyTime where
  | num (n : Int)
  | datetime (tag : Nat)
deriving DecidableEq, Repr

/-- A buildbot change record: its optional `when_timestamp` plus its
remaining fields, abstracted. -/
structure TrigChange (β : Type) where
  when_timestamp : Option PyTime
  rest : β
deriving DecidableEq, Repr

/-- `_normalize_change`: when `when_timestamp` is a `datetime.datetime` the
code executes `calendar.timegm(when.utctimetuple())`, but the module never
imports `calendar`, so the name lookup raises `NameError`; any other value
passes through unchanged. -/
def normalize_change {β : Type} (c : TrigChange β) : Except TrigError (TrigChange β) :=
  match c.when_timestamp with
  | some (PyTime.datetime _) => .error .nameError
  | _ => .ok c

/-- One trigger specification as `_trigger_builds` reads it
(`trig.get(...)` fields; `none` models an absent key). -/
structure TriggerSpec (β γ : Type) where
  builder_name : Option String
  bucket : Option String
  buildbot_changes : List (TrigChange β)
  critical : Option Bool
  properties : Option γ
  tags : Option γ
deriving DecidableEq, Repr

/-- The JSON object passed to `step.trigger` for one spec:
`builderNames` is the single-element list `[builder_name]`, `critical`
defaults to `True` when absent, and the changes have been normalized. -/
structure TrigPayload (β γ : Type) where
  builderNames : List String
  bucket : Option String
  changes : List (TrigChange β)
  critical : Bool
  properties : Option γ
  tags : Option γ
deriving DecidableEq, Repr

/-- The keys of the trigger payload in the order `json.dumps(...,
sort_keys=True)` serializes them. -/
def trigPayloadKeys : List String :=
  ["bucket", "builderNames", "changes", "critical", "properties", "tags"]

/-- Processing of a single trigger spec inside `_trigger_builds`: a missing
or empty `builder_name` raises the `ValueError`; then every change is
normalized (the first failure aborts) and the payload is assembled. -/
def trigger_one {β γ : Type} (t : TriggerSpec β γ) :
    Except TrigError (TrigPayload β γ) :=
  match t.builder_name with
  | none => .error .valueError
  | some bn =>
    if bn = "" then .error .valueError
    else
      match t.buildbot_changes.mapM normalize_change with
      | .error e => .error e
      | .ok cs =>
        .ok ⟨[bn], t.bucket, cs, t.critical.getD true, t.properties, t.tags⟩

/-- `_trigger_builds`: emits one payload per spec, in order, stopping at the
first error (payloads already emitted to the stream stay emitted). -/
def trigger_builds {β γ : Type} : List (TriggerSpec β γ) →
    List (TrigPayload β γ) × Option TrigError
  | [] => ([], none)
  | t :: rest =>
    match trigger_one t with
    | .error e => ([], some e)
    | .ok p =>
      let r := trigger_builds rest
      (p :: r.1, r.2)

/-- Lexicographic order on character lists (by code point), used to state
the `sort_keys=True` ordering of the trigger payload keys. -/
def lexLt : List Char → List Char → Bool
  | [], [] => false
  | [], _ :: _ => true
  | _ :: _, [] => false
  | a :: as, b :: bs =>
    if a.toNat < b.toNat then true
    else if b.toNat < a.toNat then false
    else lexLt as bs

/-- String comparison by code points (the order `json.dumps` sorts keys
in). -/
def strLtB (a b : String) : Bool :=
  lexLt a.toList b.toList

/-! ## Theorems: the incremental line buffer (claims C4, C10) -/

theorem linesSpec_append (s d : List Char) : ∀ cur, linesSpec cur (s ++ d) =
    ((linesSpec cur s).1 ++ (linesSpec (linesSpec cur s).2 d).1,
     (linesSpec (linesSpec cur s).2 d).2) := by
  induction s with
  | nil => intro cur; simp [linesSpec]
  | cons c s ih =>
    intro cur
    by_cases h : c = '\n'
    · subst h; simp [linesSpec, ih]
    · simp [linesSpec, h, ih]

theorem linesSpec_frag_no_nl (s : List Char) : ∀ cur, (∀ c ∈ cur, c ≠ '\n') →
    ∀ c ∈ (linesSpec cur s).2, c ≠ '\n' := by
  induction s with
  | nil => intro cur h; simpa [linesSpec] using h
  | cons a s ih =>
    intro cur h
    by_cases ha : a = '\n'
    · subst ha
      simp only [linesSpec, if_pos rfl]
      exact ih [] (by simp)
    · simp only [linesSpec, if_neg ha]
      refine ih (cur ++ [a]) ?_
      intro c hc
      rcases List.mem_append.mp hc with h1 | h1
      · exact h c h1
      · simp only [List.mem_singleton] at h1; subst h1; exact ha

theorem linesSpec_no_nl_input (s : List Char) : ∀ cur, (∀ c ∈ s, c ≠ '\n') →
    linesSpec cur s = ([], cur ++ s) := by
  induction s with
  | nil => intro cur _; simp [linesSpec]
  | cons a s ih =>
    intro cur h
    have ha : a ≠ '\n' := h a (by simp)
    simp only [linesSpec, if_neg ha]
    rw [ih (cur ++ [a]) (fun c hc => h c (by simp [hc]))]
    simp

theorem linesSpec_fst_nil (s : List Char) : ∀ cur, (linesSpec cur s).1 = [] →
    (linesSpec cur s).2 = cur ++ s := by
  induction s with
  | nil => intro cur _; simp [linesSpec]
  | cons a s ih =>
    intro cur h
    by_cases ha : a = '\n'
    · subst ha; simp [linesSpec] at h
    · simp only [linesSpec, if_neg ha] at h ⊢
      rw [ih (cur ++ [a]) h]
      simp

theorem prepFirst_nil (l : List (List Char)) : prepFirst [] l = l := by
  cases l <;> simp [prepFirst]

theorem splitlines_linesSpec (s : List Char) : ∀ cur,
    (linesSpec cur s).1 ++
        (if (linesSpec cur s).2.isEmpty then [] else [(linesSpec cur s).2]) =
      prepFirst cur (splitlines s) := by
  induction s with
  | nil =>
    intro cur
    cases cur <;> simp [linesSpec, splitlines, prepFirst]
  | cons a s ih =>
    intro cur
    by_cases ha : a = '\n'
    · subst ha
      have h1 : linesSpec cur ('\n' :: s) =
          (cur :: (linesSpec [] s).1, (linesSpec [] s).2) := by
        simp [linesSpec]
      have h2 : splitlines ('\n' :: s) = [] :: splitlines s := by
        simp [splitlines]
      rw [h1, h2]
      dsimp only
      rw [List.cons_append, ih [], prepFirst_nil]
      simp [prepFirst]
    · simp only [linesSpec, splitlines, if_neg ha]
      rw [ih (cur ++ [a])]
      cases hs : splitlines s with
      | nil => simp [prepFirst]
      | cons l ls => simp [prepFirst]

theorem endsWithNl_eq (s : List Char) : ∀ cur, s ≠ [] →
    endsWithNl s = (linesSpec cur s).2.isEmpty := by
  induction s with
  | nil => intro cur h; exact absurd rfl h
  | cons a s ih =>
    intro cur _
    cases s with
    | nil =>
      by_cases ha : a = '\n'
      · subst ha; simp [endsWithNl, linesSpec]
      · have h1 : (cur ++ [a]).isEmpty = false := by
          cases cur <;> simp
        simp [endsWithNl, linesSpec, ha, h1, beq_iff_eq]
    | cons b t =>
      have hgl : endsWithNl (a :: b :: t) = endsWithNl (b :: t) := by
        simp [endsWithNl, List.getLast?_cons_cons]
      by_cases ha : a = '\n'
      · subst ha
        rw [hgl]
        simp only [linesSpec, if_pos rfl]
        exact ih [] (by simp)
      · rw [hgl]
        simp only [linesSpec, if_neg ha]
        exact ih (cur ++ [a]) (by simp)

theorem splitlines_eq_nil (s : List Char) : splitlines s = [] ↔ s = [] := by
  cases s with
  | nil => simp [splitlines]
  | cons a s =>
    simp only [splitlines]
    by_cases ha : a = '\n'
    · simp [ha]
    · simp only [if_neg ha]
      cases hs : splitlines s <;> simp

theorem ingestTail_concat (B X : List (List Char)) (y : List Char) :
    ingestTail B (X ++ [y]) false = some ⟨B ++ X, y⟩ := by
  simp [ingestTail, List.getLast?_concat, List.dropLast_concat]

theorem ingestTail_true (B X : List (List Char)) :
    ingestTail B X true = some ⟨B ++ X, []⟩ := rfl

theorem ingest_step (B : List (List Char)) (f d : List Char)
    (hf : ∀ c ∈ f, c ≠ '\n') (hd : d ≠ []) :
    ingest ⟨B, f⟩ d = some ⟨B ++ (linesSpec f d).1, (linesSpec f d).2⟩ := by
  have hbr := splitlines_linesSpec d f
  have hend := endsWithNl_eq d f hd
  obtain ⟨l0, rest, hsp⟩ : ∃ l0 rest, splitlines d = l0 :: rest := by
    cases h : splitlines d with
    | nil => exact absurd ((splitlines_eq_nil d).mp h) hd
    | cons x xs => exact ⟨x, xs, rfl⟩
  by_cases hfe : f = []
  · -- empty leftovers: straight to the tail phase
    subst hfe
    have hmain : ingest ⟨B, []⟩ d = ingestTail B (splitlines d) (endsWithNl d) := by
      simp [ingest]
    rw [hmain]
    rw [prepFirst_nil] at hbr
    cases hE : endsWithNl d with
    | true =>
      have hfrag : (linesSpec ([] : List Char) d).2 = [] := by
        rw [hE] at hend
        exact List.isEmpty_iff.mp hend.symm
      rw [hfrag] at hbr
      simp only [List.isEmpty_nil, if_true, List.append_nil] at hbr
      rw [hbr, ingestTail_true, hfrag]
    | false =>
      have hfrag : (linesSpec ([] : List Char) d).2.isEmpty = false := by
        rw [hE] at hend; exact hend.symm
      rw [hfrag] at hbr
      simp only [Bool.false_eq_true, if_false] at hbr
      rw [← hbr, ingestTail_concat]
  · -- nonempty leftovers
    have hne : (⟨B, f⟩ : Linebuf).extra.isEmpty = false := by
      simp [List.isEmpty_iff, hfe]
    cases hE : endsWithNl d with
    | false =>
      cases hrest : rest with
      | nil =>
        -- one line, not terminated: the whole data merges into the fragment
        subst hrest
        have hbr0 := splitlines_linesSpec d []
        rw [prepFirst_nil] at hbr0
        have hfrag0 : (linesSpec ([] : List Char) d).2.isEmpty = false := by
          have := endsWithNl_eq d [] hd
          rw [hE] at this; exact this.symm
        rw [hfrag0] at hbr0
        simp only [Bool.false_eq_true, if_false] at hbr0
        rw [hsp] at hbr0
        -- hbr0 : L ++ [F] = [l0]  with  L := (linesSpec [] d).1
        have hL : (linesSpec ([] : List Char) d).1 = [] := by
          cases hL' : (linesSpec ([] : List Char) d).1 with
          | nil => rfl
          | cons x xs =>
            rw [hL'] at hbr0
            have := congrArg List.length hbr0
            simp [List.length_append] at this
        have hF : (linesSpec ([] : List Char) d).2 = l0 := by
          rw [hL] at hbr0; simpa using hbr0
        have hdval : d = l0 := by
          have := linesSpec_fst_nil d [] hL
          rw [hF] at this; simpa using this.symm
        have hnonl : ∀ c ∈ d, c ≠ '\n' := by
          intro c hc
          refine linesSpec_frag_no_nl d [] (by simp) c ?_
          rw [hF, ← hdval]; exact hc
        have htgt : linesSpec f d = ([], f ++ d) := linesSpec_no_nl_input d f hnonl
        have hmain : ingest ⟨B, f⟩ d = some ⟨B, f ++ l0⟩ := by
          simp [ingest, hne, hsp, hE]
        rw [hmain, htgt]
        simp [hdval]
      | cons r1 rs =>
        -- at least two entries: the merged first line plus the rest go to the
        -- tail phase
        have hmain : ingest ⟨B, f⟩ d =
            ingestTail B ((f ++ l0) :: rest) (endsWithNl d) := by
          simp only [ingest, hne, Bool.false_eq_true, if_false, hsp, hE, hrest]
          simp
        rw [hsp] at hbr
        have hfrag : (linesSpec f d).2.isEmpty = false := by
          rw [hE] at hend; exact hend.symm
        rw [hfrag] at hbr
        simp only [Bool.false_eq_true, if_false] at hbr
        rw [hmain, hE]
        have : (f ++ l0) :: rest = (linesSpec f d).1 ++ [(linesSpec f d).2] := by
          rw [hbr]; simp [prepFirst]
        rw [this, ingestTail_concat]
    | true =>
      have hmain : ingest ⟨B, f⟩ d =
          ingestTail B ((f ++ l0) :: rest) (endsWithNl d) := by
        simp only [ingest, hne, Bool.false_eq_true, if_false, hsp, hE]
        simp
      have hfrag : (linesSpec f d).2 = [] := by
        rw [hE] at hend
        exact List.isEmpty_iff.mp hend.symm
      rw [hsp, hfrag] at hbr
      simp only [List.isEmpty_nil, if_true, List.append_nil] at hbr
      rw [hmain, hE]
      have : (f ++ l0) :: rest = (linesSpec f d).1 := by
        rw [hbr]; simp [prepFirst]
      rw [this, ingestTail_true, hfrag]

theorem ingestAll_spec (chunks : List (List Char)) : ∀ (B : List (List Char))
    (f : List Char), (∀ c ∈ f, c ≠ '\n') → (∀ ch ∈ chunks, ch ≠ []) →
    ingestAll ⟨B, f⟩ chunks =
      some ⟨B ++ (linesSpec f chunks.flatten).1, (linesSpec f chunks.flatten).2⟩ := by
  induction chunks with
  | nil => intro B f _ _; simp [ingestAll, linesSpec]
  | cons d ds ih =>
    intro B f hf hch
    have hd : d ≠ [] := hch d (by simp)
    rw [ingestAll, ingest_step B f d hf hd]
    show ingestAll ⟨B ++ (linesSpec f d).1, (linesSpec f d).2⟩ ds = _
    rw [ih _ _ (linesSpec_frag_no_nl d f hf) (fun ch h => hch ch (by simp [h]))]
    have happ := linesSpec_append d ds.flatten f
    simp [List.flatten_cons, happ, List.append_assoc]

/-- C4: for every sequence of (nonempty) chunks fed to the incremental line
buffer, the buffered lines are exactly the complete (newline-terminated)
lines of the concatenated stream and the carried fragment is exactly its
unterminated tail — so no line is ever emitted before its terminator is
observed, and a read boundary never splits or duplicates a line.  The
witness instantiates the "abc" / "def\n" / "ghi" example: after the second
chunk exactly the single line "abcdef" has been completed, and "ghi" only
sits in the carried fragment. -/
theorem linebuf_ingest_exact_lines (chunks : List (List Char))
    (h : ∀ ch ∈ chunks, ch ≠ []) :
    ingestAll ⟨[], []⟩ chunks =
      some ⟨(linesSpec [] chunks.flatten).1, (linesSpec [] chunks.flatten).2⟩ := by
  simpa using ingestAll_spec chunks [] [] (by simp) h

/-- Witness for C4: the concrete example from the spec. -/
theorem linebuf_ingest_exact_lines_witness :
    ingestAll ⟨[], []⟩ [['a','b','c'], ['d','e','f','\n']] =
      some ⟨[['a','b','c','d','e','f']], []⟩ ∧
    ingestAll ⟨[], []⟩ [['a','b','c'], ['d','e','f','\n'], ['g','h','i']] =
      some ⟨[['a','b','c','d','e','f']], ['g','h','i']⟩ := by
  constructor
  · exact (linebuf_ingest_exact_lines [['a','b','c'], ['d','e','f','\n']]
      (by decide)).trans (by decide)
  · exact (linebuf_ingest_exact_lines
      [['a','b','c'], ['d','e','f','\n'], ['g','h','i']] (by decide)).trans (by decide)

/-- C10: in every buffer state, `ingest` of the empty string raises an
`IndexError` (modelled as `none`), and `ingest` of any non-empty chunk
returns normally. -/
theorem ingest_empty_raises_nonempty_ok :
    (∀ st : Linebuf, ingest st [] = none) ∧
    (∀ (st : Linebuf) (d : List Char), d ≠ [] → (ingest st d).isSome = true) := by
  constructor
  · intro st
    by_cases h : st.extra.isEmpty <;>
      simp [ingest, h, ingestTail, splitlines, endsWithNl]
  · intro st d hd
    obtain ⟨l0, rest, hsp⟩ : ∃ l0 rest, splitlines d = l0 :: rest := by
      cases h : splitlines d with
      | nil => exact absurd ((splitlines_eq_nil d).mp h) hd
      | cons x xs => exact ⟨x, xs, rfl⟩
    have htail : ∀ (B : List (List Char)) (e : Bool),
        (ingestTail B (l0 :: rest) e).isSome = true := by
      intro B e
      cases e with
      | true => simp [ingestTail]
      | false =>
        cases hg : (l0 :: rest).getLast? with
        | none => simp [List.getLast?_eq_none_iff] at hg
        | some y => simp [ingestTail, hg]
    by_cases h : st.extra.isEmpty
    · simp only [ingest, h, if_true, hsp]
      exact htail _ _
    · simp only [ingest, h, Bool.false_eq_true, if_false, hsp]
      by_cases hc : rest.isEmpty && !endsWithNl d
      · simp [hc]
      · simp only [hc, Bool.false_eq_true, if_false]
        cases hrest : rest with
        | nil =>
          cases hE : endsWithNl d with
          | true => simp [ingestTail]
          | false => rw [hrest, hE] at hc; simp at hc
        | cons r1 rs =>
          cases hE : endsWithNl d with
          | true => simp [ingestTail]
          | false =>
            cases hg : ((st.extra ++ l0) :: r1 :: rs).getLast? with
            | none => simp [List.getLast?_eq_none_iff] at hg
            | some y => simp [ingestTail, hg]

/-- Witness for C10. -/
theorem ingest_empty_raises_nonempty_ok_witness :
    ingest ⟨[], []⟩ [] = none ∧ (ingest ⟨[], []⟩ ['a']).isSome = true :=
  ⟨ingest_empty_raises_nonempty_ok.1 ⟨[], []⟩,
   ingest_empty_raises_nonempty_ok.2 ⟨[], []⟩ ['a'] (by decide)⟩

/-! ## Theorems: `_merge_envs` (claim C5) -/

theorem alistGet_del_self {κ β : Type} [DecidableEq κ] (l : List (κ × β)) (k : κ) :
    alistGet (alistDel l k) k = none := by
  induction l with
  | nil => simp [alistDel, alistGet]
  | cons p rest ih =>
    by_cases h : p.1 = k
    · simpa [alistDel, h] using ih
    · simpa [alistDel, alistGet, h] using ih

theorem alistGet_del_ne {κ β : Type} [DecidableEq κ] (l : List (κ × β)) (k k1 : κ)
    (h : k1 ≠ k) : alistGet (alistDel l k1) k = alistGet l k := by
  induction l with
  | nil => simp [alistDel]
  | cons p rest ih =>
    by_cases hp : p.1 = k1
    · have : p.1 ≠ k := by rw [hp]; exact h
      simp [alistDel, alistGet, hp, h, this, ih]
    · simp only [alistDel, if_neg hp]
      by_cases hk : p.1 = k
      · simp [alistGet, hk]
      · simp [alistGet, hk, ih]

theorem alistGet_set_self {κ β : Type} [DecidableEq κ] (l : List (κ × β)) (k : κ)
    (v : β) : alistGet (alistSet l k v) k = some v := by
  induction l with
  | nil => simp [alistSet, alistGet]
  | cons p rest ih =>
    by_cases h : p.1 = k
    · simp [alistSet, alistGet, h]
    · simp [alistSet, alistGet, h, ih]

theorem alistGet_set_ne {κ β : Type} [DecidableEq κ] (l : List (κ × β)) (k k1 : κ)
    (v : β) (h : k1 ≠ k) : alistGet (alistSet l k1 v) k = alistGet l k := by
  induction l with
  | nil => simp [alistSet, alistGet, h]
  | cons p rest ih =>
    by_cases hp : p.1 = k1
    · have hne : p.1 ≠ k := by rw [hp]; exact h
      simp [alistSet, alistGet, hp, h, hne]
    · simp only [alistSet, if_neg hp]
      by_cases hk : p.1 = k
      · simp [alistGet, hk]
      · simp [alistGet, hk, ih]

theorem merge_envs_untouched (fmt : String → List (String × String) → String)
    (original : List (String × String)) (rest : List (String × Option String))
    (e : List (String × String)) (k : String) (hk : k ∉ rest.map Prod.fst) :
    alistGet
      (rest.foldl
        (fun result kv =>
          match kv.2 with
          | none => alistDel result kv.1
          | some v => alistSet result kv.1 (fmt v original))
        e) k = alistGet e k := by
  induction rest generalizing e with
  | nil => rfl
  | cons kv tl ih =>
    have hk1 : kv.1 ≠ k := by
      intro h
      exact hk (by simp [← h])
    have hk2 : k ∉ tl.map Prod.fst := by
      intro h
      exact hk (by simp [h])
    rw [List.foldl_cons]
    cases hv : kv.2 with
    | none =>
      dsimp only
      rw [ih _ hk2, alistGet_del_ne _ _ _ hk1]
    | some v =>
      dsimp only
      rw [ih _ hk2, alistGet_set_ne _ _ _ _ hk1]

/-- C5: the environment merged by `_merge_envs` deletes every key whose
override value is `None`, maps every other override key to its formatted
value (with substitution tokens resolved against the pre-override
`original` — `fmt` is applied to `original`, the override thereby winning
over the original on conflicting keys), and leaves every non-overridden key
bound to its original value.  `override` keys are distinct, as Python dict
keys are. -/
theorem merge_envs_spec (fmt : String → List (String × String) → String)
    (original : List (String × String)) (override : List (String × Option String))
    (hnd : (override.map Prod.fst).Nodup) :
    (∀ k, (k, none) ∈ override →
      alistGet (merge_envs fmt original override) k = none) ∧
    (∀ k v, (k, some v) ∈ override →
      alistGet (merge_envs fmt original override) k = some (fmt v original)) ∧
    (∀ k, k ∉ override.map Prod.fst →
      alistGet (merge_envs fmt original override) k = alistGet original k) := by
  refine ⟨?_, ?_, ?_⟩
  · intro k hk
    obtain ⟨s, t, hst⟩ := List.append_of_mem hk
    subst hst
    have hkt : k ∉ t.map Prod.fst := by
      rw [List.map_append, List.map_cons] at hnd
      have := (List.nodup_append.mp hnd).2.1
      exact (List.nodup_cons.mp this).1
    rw [merge_envs, List.foldl_append, List.foldl_cons]
    rw [merge_envs_untouched fmt original t _ k hkt]
    exact alistGet_del_self _ k
  · intro k v hk
    obtain ⟨s, t, hst⟩ := List.append_of_mem hk
    subst hst
    have hkt : k ∉ t.map Prod.fst := by
      rw [List.map_append, List.map_cons] at hnd
      have := (List.nodup_append.mp hnd).2.1
      exact (List.nodup_cons.mp this).1
    rw [merge_envs, List.foldl_append, List.foldl_cons]
    rw [merge_envs_untouched fmt original t _ k hkt]
    exact alistGet_set_self _ k _
  · intro k hk
    exact merge_envs_untouched fmt original override original k hk

/-- Witness for C5: PATH extension, a deletion, and an untouched variable. -/
theorem merge_envs_spec_witness :
    alistGet (merge_envs (fun v e => v ++ ((alistGet e "PATH").getD ""))
      [("PATH", "/bin"), ("HOME", "/root"), ("TERM", "xterm")]
      [("PATH", some "/opt:"), ("HOME", none)]) "PATH" = some "/opt:/bin" ∧
    alistGet (merge_envs (fun v e => v ++ ((alistGet e "PATH").getD ""))
      [("PATH", "/bin"), ("HOME", "/root"), ("TERM", "xterm")]
      [("PATH", some "/opt:"), ("HOME", none)]) "HOME" = none ∧
    alistGet (merge_envs (fun v e => v ++ ((alistGet e "PATH").getD ""))
      [("PATH", "/bin"), ("HOME", "/root"), ("TERM", "xterm")]
      [("PATH", some "/opt:"), ("HOME", none)]) "TERM" = some "xterm" := by
  have h := merge_envs_spec (fun v e => v ++ ((alistGet e "PATH").getD ""))
    [("PATH", "/bin"), ("HOME", "/root"), ("TERM", "xterm")]
    [("PATH", some "/opt:"), ("HOME", none)] (by decide)
  refine ⟨?_, ?_, ?_⟩
  · exact (h.2.1 "PATH" "/opt:" (by decide)).trans (by decide)
  · exact h.1 "HOME" (by decide)
  · exact (h.2.2 "TERM" (by decide)).trans (by decide)

/-! ## Theorems: output-placeholder defaults (claims C6, C9) -/

/-- Counterexample to C6 as stated: in a group with one unnamed instance
(result `0`) and one instance named `"x"` (result `1`), the group default is
the unnamed instance's result `0`, not the named result `1`. -/
theorem groupResults_default_not_named_cex :
    groupResults [((none : Option String), (0 : Nat)), (some "x", 1)] =
      ([("x", 1)], some 0) ∧
    (groupResults [((none : Option String), (0 : Nat)), (some "x", 1)]).2 ≠ some 1 := by
  constructor
  · rfl
  · decide

/-- C6 (amended): a group with exactly one unnamed and one explicitly-named
output placeholder yields the named result (addressable by its instance
name) and a group default equal to the *unnamed* instance's result — in
either iteration order. -/
theorem groupResults_one_unnamed_one_named {α : Type} (n : String) (r u : α) :
    groupResults [(none, u), (some n, r)] = ([(n, r)], some u) ∧
    groupResults [(some n, r), (none, u)] = ([(n, r)], some u) := by
  exact ⟨rfl, rfl⟩

/-- C9: a group whose only instance carries an explicit name still gets a
group default, equal to that single named instance's result, although no
instance omitted its name. -/
theorem groupResults_single_named_default {α : Type} (n : String) (r : α) :
    groupResults [(some n, r)] = ([(n, r)], some r) := rfl

/-! ## Theorems: simulated `run()` timeout (claim C1) -/

/-- Counterexample to C1 as stated: with a forced timeout of 1 unit smaller
than the requested 5 units, the simulated `run()` does *not* raise — it
records the step in the history and synthesizes the result. -/
theorem simRun_forced_below_requested_no_timeout_cex :
    simRun [] ⟨"s", some 5⟩ ⟨0, some 1⟩ =
      (SimOutcome.result 0, [("s", ⟨"s", some 5⟩)]) ∧
    simRun [] ⟨"s", some 5⟩ ⟨0, some 1⟩ ≠
      (SimOutcome.stepTimeout "s" 5, ([] : List (String × SimStep))) := by
  constructor
  · rfl
  · decide

/-- C1 (amended): for a step with positive requested timeout `t` and a
fixture with positive forced timeout `a`, the simulated `run()` raises
`StepTimeout` naming the step and the requested timeout — leaving the run
history untouched and consuming no (simulated) time — exactly when the
forced timeout is *greater* than the requested one; otherwise it appends
the step to the history and synthesizes the fixture's return code. -/
theorem simRun_timeout_amended (hist : List (String × SimStep)) (n : String)
    (t a : Nat) (rc : Int) (ht : 0 < t) (ha : 0 < a) :
    (t < a → simRun hist ⟨n, some t⟩ ⟨rc, some a⟩ =
      (SimOutcome.stepTimeout n t, hist)) ∧
    (a ≤ t → simRun hist ⟨n, some t⟩ ⟨rc, some a⟩ =
      (SimOutcome.result rc, alistSet hist n ⟨n, some t⟩)) := by
  have ht' : t ≠ 0 := Nat.pos_iff_ne_zero.mp ht
  have ha' : a ≠ 0 := Nat.pos_iff_ne_zero.mp ha
  constructor
  · intro hlt
    simp [simRun, pyTruthy, ht', ha', hlt]
  · intro hle
    have hngt : ¬ (a > t) := not_lt.mpr hle
    simp [simRun, pyTruthy, hngt]

/-- Witness for C1: forced 5 over requested 1 raises; forced 5 at requested
5 runs and records. -/
theorem simRun_timeout_amended_witness :
    simRun [] ⟨"s", some 1⟩ ⟨0, some 5⟩ = (SimOutcome.stepTimeout "s" 1, []) ∧
    simRun [] ⟨"s", some 5⟩ ⟨7, some 5⟩ =
      (SimOutcome.result 7, [("s", ⟨"s", some 5⟩)]) := by
  constructor
  · exact (simRun_timeout_amended [] "s" 1 5 0 (by decide) (by decide)).1 (by decide)
  · exact ((simRun_timeout_amended [] "s" 5 5 7 (by decide) (by decide)).2
      (by decide)).trans (by decide)

/-! ## Theorems: `run_context` exception policy (claim C2) -/

/-- Counterexample to C2 as stated: an exception raised inside
`SubprocessStepRunner.run_context` does not propagate — the bare
`except Exception: pass` swallows it and the context completes normally. -/
theorem subprocess_run_context_swallows_cex :
    subprocess_run_context (some "ValueError") = none ∧
    subprocess_run_context (some "ValueError") ≠ some "ValueError" := by
  constructor
  · rfl
  · decide

/-- C2 (amended): `SubprocessStepRunner.run_context` deliberately swallows
*every* exception (its docstring: they are reported in the RecipeResult),
so nothing raised inside it propagates; `SimulationStepRunner.run_context`
propagates a raised exception unless it matches the declared expected
exception, in which case the run completes normally (given all fixtures
were consumed). -/
theorem run_context_exception_semantics :
    (∀ body : Option String, subprocess_run_context body = none) ∧
    (∀ (expected : Option String) (consumed : Bool) (ex : String),
      expected ≠ some ex →
        sim_run_context expected consumed (some ex) = SimCtxOutcome.raised ex) ∧
    (∀ ex : String, sim_run_context (some ex) true (some ex) =
      SimCtxOutcome.completed) := by
  refine ⟨?_, ?_, ?_⟩
  · intro body
    cases body <;> rfl
  · intro expected consumed ex hne
    have hsr : should_raise_exception expected ex = true := by
      simp [should_raise_exception, beq_iff_eq, hne]
    simp [sim_run_context, hsr]
  · intro ex
    simp [sim_run_context, should_raise_exception]

/-- Witness for C2. -/
theorem run_context_exception_semantics_witness :
    subprocess_run_context (some "E") = none ∧
    sim_run_context (some "X") true (some "Y") = SimCtxOutcome.raised "Y" ∧
    sim_run_context (some "X") true (some "X") = SimCtxOutcome.completed :=
  ⟨run_context_exception_semantics.1 (some "E"),
   run_context_exception_semantics.2.1 (some "X") true "Y" (by decide),
   run_context_exception_semantics.2.2 "X"⟩

/-! ## Theorems: render-time instance-name enforcement (claim C7) -/

theorem groupGet_append_self (g : List ((String × String) × List (Option String)))
    (k : String × String) (v : Option String) :
    groupGet (groupAppend g k v) k = groupGet g k ++ [v] := by
  simp [groupAppend, groupGet, alistGet_set_self]

theorem groupGet_append_ne (g : List ((String × String) × List (Option String)))
    (k k1 : String × String) (v : Option String) (h : k1 ≠ k) :
    groupGet (groupAppend g k1 v) k = groupGet g k := by
  simp [groupAppend, groupGet, alistGet_set_ne _ _ _ _ h]

theorem outInstNames_cons_lit (t : String) (rest : List CmdItem) (m p : String) :
    outInstNames (CmdItem.lit t :: rest) m p = outInstNames rest m p := by
  simp [outInstNames]

theorem outInstNames_cons_input (m1 p1 : String) (inst : Option String)
    (toks : List String) (rest : List CmdItem) (m p : String) :
    outInstNames (CmdItem.inputPh m1 p1 inst toks :: rest) m p =
      outInstNames rest m p := by
  simp [outInstNames]

theorem outInstNames_cons_output (m1 p1 : String) (inst : Option String)
    (toks : List String) (rest : List CmdItem) (m p : String) :
    outInstNames (CmdItem.outputPh m1 p1 inst toks :: rest) m p =
      (if m1 = m ∧ p1 = p then [inst] else []) ++ outInstNames rest m p := by
  by_cases h : m1 = m ∧ p1 = p <;> simp [outInstNames, h]

theorem render_one_err_name (s : String) (st : RState) (item : CmdItem)
    (e : String × String × String) (h : render_one s st item = .error e) :
    e.1 = s := by
  cases item with
  | lit t => simp [render_one] at h
  | inputPh m p inst toks => simp [render_one] at h
  | outputPh m p inst toks =>
    by_cases hmem : inst ∈ groupGet st.output_phs (m, p)
    · rw [render_one] at h
      rw [if_pos hmem] at h
      cases h
      rfl
    · rw [render_one] at h
      rw [if_neg hmem] at h
      cases h

theorem render_cmd_err_name (s : String) : ∀ (cmd : List CmdItem) (st : RState)
    (e : String × String × String), render_cmd s st cmd = .error e → e.1 = s := by
  intro cmd
  induction cmd with
  | nil =>
    intro st e h
    simp [render_cmd] at h
  | cons item rest ih =>
    intro st e h
    rw [render_cmd] at h
    cases hro : render_one s st item with
    | error e1 =>
      rw [hro] at h
      injection h with h2
      subst h2
      exact render_one_err_name s st item _ hro
    | ok st1 =>
      rw [hro] at h
      exact ih st1 e h

theorem render_cmd_ok_iff (s : String) : ∀ (cmd : List CmdItem) (st : RState),
    (∀ m p, (groupGet st.output_phs (m, p)).Nodup) →
    (exceptOk (render_cmd s st cmd) = true ↔
      ∀ m p, (groupGet st.output_phs (m, p) ++ outInstNames cmd m p).Nodup) := by
  intro cmd
  induction cmd with
  | nil =>
    intro st hst
    simp only [render_cmd, exceptOk, outInstNames, List.filterMap_nil,
      List.append_nil]
    exact iff_of_true trivial hst
  | cons item rest ih =>
    intro st hst
    cases item with
    | lit t =>
      rw [render_cmd]
      have hro : render_one s st (CmdItem.lit t) =
          .ok { st with new_cmd := st.new_cmd ++ [t] } := rfl
      rw [hro]
      dsimp only
      rw [ih { st with new_cmd := st.new_cmd ++ [t] } hst]
      constructor
      · intro h m p
        rw [outInstNames_cons_lit]
        exact h m p
      · intro h m p
        have := h m p
        rwa [outInstNames_cons_lit] at this
    | inputPh m1 p1 inst toks =>
      rw [render_cmd]
      have hro : render_one s st (CmdItem.inputPh m1 p1 inst toks) =
          .ok { st with new_cmd := st.new_cmd ++ toks,
                        input_phs := groupAppend st.input_phs (m1, p1) inst } := rfl
      rw [hro]
      dsimp only
      rw [ih { st with new_cmd := st.new_cmd ++ toks,
                       input_phs := groupAppend st.input_phs (m1, p1) inst } hst]
      constructor
      · intro h m p
        rw [outInstNames_cons_input]
        exact h m p
      · intro h m p
        have := h m p
        rwa [outInstNames_cons_input] at this
    | outputPh m1 p1 inst toks =>
      rw [render_cmd]
      by_cases hmem : inst ∈ groupGet st.output_phs (m1, p1)
      · have hro : render_one s st (CmdItem.outputPh m1 p1 inst toks) =
            .error (s, m1, p1) := by
          rw [render_one]; rw [if_pos hmem]
        rw [hro]
        dsimp only
        constructor
        · intro h
          exact absurd h (by simp [exceptOk])
        · intro h
          exfalso
          have hthis := h m1 p1
          rw [outInstNames_cons_output] at hthis
          simp only [and_self, if_pos] at hthis
          rw [show ([inst] ++ outInstNames rest m1 p1) =
            inst :: outInstNames rest m1 p1 from rfl] at hthis
          rcases List.nodup_append.mp hthis with ⟨_, _, hdisj⟩
          exact hdisj hmem (List.mem_cons_self _ _)
      · have hro : render_one s st (CmdItem.outputPh m1 p1 inst toks) =
            .ok { st with new_cmd := st.new_cmd ++ toks,
                          output_phs := groupAppend st.output_phs (m1, p1) inst } := by
          rw [render_one]; rw [if_neg hmem]
        rw [hro]
        dsimp only
        have hst1 : ∀ m p,
            (groupGet (groupAppend st.output_phs (m1, p1) inst) (m, p)).Nodup := by
          intro m p
          by_cases hk : ((m1, p1) : String × String) = (m, p)
          · rw [← hk, groupGet_append_self]
            rw [List.nodup_append]
            refine ⟨hst m1 p1, List.nodup_singleton _, ?_⟩
            intro a ha hb
            exact hmem ((List.mem_singleton.mp hb) ▸ ha)
          · rw [groupGet_append_ne _ _ _ _ hk]
            exact hst m p
        rw [ih _ hst1]
        have hlist : ∀ m p,
            groupGet (groupAppend st.output_phs (m1, p1) inst) (m, p) ++
              outInstNames rest m p =
            groupGet st.output_phs (m, p) ++
              outInstNames (CmdItem.outputPh m1 p1 inst toks :: rest) m p := by
          intro m p
          rw [outInstNames_cons_output]
          by_cases hk : m1 = m ∧ p1 = p
          · obtain ⟨h1, h2⟩ := hk
            subst h1; subst h2
            rw [groupGet_append_self]
            simp
          · have hk1 : ((m1, p1) : String × String) ≠ (m, p) := by
              intro hcontra
              exact hk ⟨congrArg Prod.fst hcontra, congrArg Prod.snd hcontra⟩
            rw [groupGet_append_ne _ _ _ _ hk1]
            simp [hk]
        constructor
        · intro h m p
          rw [← hlist m p]
          exact h m p
        · intro h m p
          rw [hlist m p]
          exact h m p

/-- Counterexample to C7 as stated: two *input* placeholders of the same
`(module, name)` group carrying the same explicit instance name `"x"`
render without any error — the duplicate is silently appended to the
group's list; the render-time check exists only for output placeholders. -/
theorem render_cmd_dup_input_names_ok_cex :
    render_cmd "s0" rinit
      [CmdItem.inputPh "m" "p" (some "x") [], CmdItem.inputPh "m" "p" (some "x") []] =
      Except.ok ⟨[], [(("m", "p"), [some "x", some "x"])], []⟩ := rfl

/-- C7 (amended): for *output* placeholders the rendering of `cmd` fails
with a configuration error exactly when some `(module, name)` group's
instance names (an omitted name counting as the name `None`) contain a
duplicate — covering both duplicate explicit names and two unnamed
instances — and every such error identifies the offending step by name;
input placeholders are not checked. -/
theorem render_cmd_output_dup_error (s : String) (cmd : List CmdItem) :
    (∀ e, render_cmd s rinit cmd = Except.error e → e.1 = s) ∧
    (exceptOk (render_cmd s rinit cmd) = true ↔
      ∀ m p, (outInstNames cmd m p).Nodup) := by
  constructor
  · intro e h
    exact render_cmd_err_name s cmd rinit e h
  · have h := render_cmd_ok_iff s cmd rinit
      (by intro m p; simp [rinit, groupGet, alistGet])
    simpa [rinit, groupGet, alistGet] using h

/-- Witness for C7: two unnamed output placeholders of one group fail the
render, with the error naming the step. -/
theorem render_cmd_output_dup_error_witness :
    exceptOk (render_cmd "s0" rinit
      [CmdItem.outputPh "m" "p" none [], CmdItem.outputPh "m" "p" none []]) = false ∧
    (("s0", "m", "p") : String × String × String).1 = "s0" := by
  constructor
  · have h := (render_cmd_output_dup_error "s0"
      [CmdItem.outputPh "m" "p" none [], CmdItem.outputPh "m" "p" none []]).2
    cases hb : exceptOk (render_cmd "s0" rinit
      [CmdItem.outputPh "m" "p" none [], CmdItem.outputPh "m" "p" none []]) with
    | false => rfl
    | true =>
      have hn := (h.mp hb) "m" "p"
      simp [outInstNames] at hn
  · exact (render_cmd_output_dup_error "s0" [CmdItem.outputPh "m" "p" none [],
      CmdItem.outputPh "m" "p" none []]).1 ("s0", "m", "p") rfl

/-! ## Theorems: live timeout handling (claim C3) -/

theorem run_cmd_loop_no_kill (timeout : Option Nat) (rc : Int) :
    ∀ (events : List PollEvent) (bufs : List (String × Linebuf))
      (acts : List RunAction), RunAction.kill ∉ acts →
      RunAction.kill ∉ (run_cmd_loop timeout rc bufs acts events).1 := by
  intro events
  induction events with
  | nil =>
    intro bufs acts h
    simpa [run_cmd_loop] using h
  | cons ev evs ih =>
    intro bufs acts h
    rw [run_cmd_loop]
    by_cases hto : (pyTruthy timeout && decide (ev.elapsed > timeout.getD 0)) = true
    · rw [if_pos hto]
      intro hmem
      rcases List.mem_append.mp hmem with h1 | h1
      · exact h h1
      · simp at h1
    · rw [if_neg hto]
      cases hit : ev.item with
      | none => exact ih bufs acts h
      | some pd =>
        obtain ⟨pipe, data⟩ := pd
        dsimp only
        cases hbg : alistGet bufs pipe with
        | none => exact ih bufs acts h
        | some buf =>
          dsimp only
          cases hing : ingest buf data with
          | none => exact h
          | some buf1 =>
            dsimp only
            refine ih _ _ ?_
            intro hmem
            rcases List.mem_append.mp hmem with h1 | h1
            · exact h h1
            · rcases List.mem_map.mp h1 with ⟨l, _, hl⟩
              cases hl

/-- C3: the live polling loop of `_run_cmd` contains no action that
terminates the child process — its action trace never contains a kill, so
on the timeout path `TimeoutExpired` (surfaced to the caller as
`StepTimeout`) is raised with the child still running.  The second conjunct
evaluates the failing input: a step with requested timeout 1 whose child is
still producing output at elapsed time 2 raises `StepTimeout("s", 1)` with
a trace holding only the forwarded line and the raise — and no kill. -/
theorem run_cmd_timeout_no_kill :
    (∀ (name : String) (timeout : Option Nat) (rc : Int)
       (bufs : List (String × Linebuf)) (events : List PollEvent),
       RunAction.kill ∉ (open_step_run name timeout rc bufs events).1) ∧
    open_step_run "s" (some 1) 0 [("stdout", ⟨[], []⟩)]
        [⟨0, some ("stdout", ['h', 'i', '\n'])⟩, ⟨2, some ("stdout", ['x'])⟩] =
      ([RunAction.writeLine "stdout" ['h', 'i'], RunAction.raiseTimeoutExpired 1],
       StepOutcome.stepTimeout "s" 1) := by
  constructor
  · intro name timeout rc bufs events
    rw [open_step_run]
    have h := run_cmd_loop_no_kill timeout rc events bufs [] (by simp)
    cases hr : run_cmd_loop timeout rc bufs [] events with
    | mk acts res =>
      rw [hr] at h
      cases res <;> simpa using h
  · decide

/-! ## Theorems: trigger records (claim C8) -/

/-- C8: building the trigger record for a spec whose change carries a
`datetime` `when_timestamp` fails with a `NameError` (`calendar` is never
imported), instead of emitting the record with the timestamp normalized to
epoch seconds; for a spec without a `datetime` timestamp the record is
emitted with `builderNames` the single-element list of the builder name and
`critical` defaulting to true, and the payload keys are serialized in
sorted order. -/
theorem trigger_builds_datetime_name_error :
    trigger_builds
        [(⟨some "b", none, [⟨some (PyTime.datetime 0), ()⟩], none, none, none⟩ :
          TriggerSpec Unit Unit)] =
      ([], some TrigError.nameError) ∧
    trigger_builds
        [(⟨some "b", none, [⟨some (PyTime.num 1451606400), ()⟩], none, none, none⟩ :
          TriggerSpec Unit Unit)] =
      ([(⟨["b"], none, [⟨some (PyTime.num 1451606400), ()⟩], true, none, none⟩ :
          TrigPayload Unit Unit)], none) ∧
    List.Pairwise (fun a b => strLtB a b = true) trigPayloadKeys := by
  refine ⟨rfl, rfl, ?_⟩
  decide

/-- Witness for C3: a concrete run whose trace is kill-free. -/
theorem run_cmd_timeout_no_kill_witness :
    RunAction.kill ∉ (open_step_run "w" (some 1) 0 [("stdout", ⟨[], []⟩)]
      [⟨2, none⟩]).1 :=
  run_cmd_timeout_no_kill.1 "w" (some 1) 0 [("stdout", ⟨[], []⟩)] [⟨2, none⟩]
